import Mathlib

/-!
Verification development for the snap-confine path segment walker of the
snapd repository (`cmd/snap-confine/mount-support.c` and its test file
`mount-support-test.c`).

The walker consumes a path buffer whose separator bytes `/` have been
pre-normalized to the NUL terminator sentinel (by `replace_slashes_with_NUL`
in the test file), together with a caller-owned cursor, and yields one
non-empty path segment per call, or signals exhaustion.

Bytes are modelled as `Nat` (`'/' = 47`, the NUL sentinel is `0`).  A path
buffer is a `List Nat`; the C pointer returned by `get_nextpath` is modelled
as the start offset of the segment inside the buffer, and the C-string value
read through such a pointer is recovered by `cstr`.
-/

set_option autoImplicit false
set_option linter.unusedVariables false

/-- A byte is the NUL terminator sentinel (a normalized path separator). -/
def isNUL (c : Nat) : Bool := c == 0

/-- A byte is not the NUL terminator sentinel. -/
def nonNUL (c : Nat) : Bool := !(c == 0)

/-- One C scanning loop `while (offset < fulllen && p(path[offset])) offset++;`.
The `fuel` argument makes the recursion structural; it is always instantiated
with `fulllen - offset`, which bounds the number of iterations exactly. -/
def scanWhile (p : Nat → Bool) (path : List Nat) (fulllen : Nat) : Nat → Nat → Nat
  | 0, offset => offset
  | fuel + 1, offset =>
    if offset < fulllen then
      if p (path.getD offset 0) then scanWhile p path fulllen fuel (offset + 1)
      else offset
    else offset

/-- Scan forward from `offset` while `p` holds, stopping at `fulllen`. -/
def scanFrom (p : Nat → Bool) (path : List Nat) (fulllen offset : Nat) : Nat :=
  scanWhile p path fulllen (fulllen - offset) offset

/-- Modelled from the spec: `get_nextpath` is implemented in
`cmd/snap-confine/mount-support.c`, which is not part of the sources here
(only its test file is).  The model follows the contract of spec section 4.1
("Path Segment Walker") together with the call sequences pinned by the
repository's own tests (section 8): starting at the cursor the walker first
winds forward over the (possibly already consumed) non-separator bytes to the
next boundary — this is what makes the `..` component of `..///path` get
swallowed in `test_get_nextpath__weird` — then skips the run of separator
sentinels; if the end was reached it signals exhaustion without mutating the
cursor, otherwise the segment starts there and the cursor is advanced to the
segment's end before returning.  Returns the segment's start offset (the C
`char *` return value) paired with the updated cursor. -/
def get_nextpath (path : List Nat) (offset fulllen : Nat) : Option Nat × Nat :=
  let o1 := scanFrom nonNUL path fulllen offset
  let o2 := scanFrom isNUL path fulllen o1
  if o2 < fulllen then (some o2, scanFrom nonNUL path fulllen o2)
  else (none, offset)

/-- The C-string value read through a pointer into the buffer at `start`:
the bytes from `start` up to the first NUL terminator. -/
def cstr (path : List Nat) (start : Nat) : List Nat :=
  (path.drop start).takeWhile nonNUL

/-- Successive calls to `get_nextpath`, collecting every yielded segment until
exhaustion.  `fuel` makes the recursion structural; it is instantiated with
`fulllen + 1 - offset`, which bounds the number of calls because every
successful call strictly advances the cursor. -/
def walkAux (path : List Nat) (fulllen : Nat) : Nat → Nat → List (List Nat)
  | 0, _ => []
  | fuel + 1, offset =>
    match get_nextpath path offset fulllen with
    | (none, _) => []
    | (some s, o2) => cstr path s :: walkAux path fulllen fuel o2

/-- The complete walk: all segments yielded by successive calls to
`get_nextpath` starting at cursor `offset`. -/
def walkSegments (path : List Nat) (offset fulllen : Nat) : List (List Nat) :=
  walkAux path fulllen (fulllen + 1 - offset) offset

/-- The separator-normalization preprocessing step from
`mount-support-test.c`: replace every `'/'` (byte 47) at an index `< len`
with the NUL sentinel, leaving all other bytes unchanged. -/
def replace_slashes_with_NUL : List Nat → Nat → List Nat
  | [], _ => []
  | path, 0 => path
  | c :: rest, len + 1 =>
    (if c == 47 then 0 else c) :: replace_slashes_with_NUL rest len

/-- The byte string `"/some/path"` of `test_get_nextpath__typical`. -/
def typicalRaw : List Nat := [47, 115, 111, 109, 101, 47, 112, 97, 116, 104]

/-- The buffer of `test_get_nextpath__typical` after separator normalization. -/
def typicalPath : List Nat := replace_slashes_with_NUL typicalRaw 10

/-- The byte string `"..///path"` of `test_get_nextpath__weird`. -/
def weirdRaw : List Nat := [46, 46, 47, 47, 47, 112, 97, 116, 104]

/-- The buffer of `test_get_nextpath__weird` after separator normalization. -/
def weirdPath : List Nat := replace_slashes_with_NUL weirdRaw 9

/-- The maximal non-empty runs of non-separator bytes of a buffer, in
left-to-right order: the buffer's path components. -/
def segmentsOf : List Nat → List (List Nat)
  | [] => []
  | c :: rest =>
    if c == 0 then segmentsOf rest
    else (c :: rest.takeWhile nonNUL) :: segmentsOf (rest.dropWhile nonNUL)
termination_by l => l.length
decreasing_by
  · simp
  · have h : ∀ l : List Nat, (l.dropWhile nonNUL).length ≤ l.length := by
      intro l
      induction l with
      | nil => simp [List.dropWhile]
      | cons a l ih =>
        rw [List.dropWhile_cons]
        cases nonNUL a
        · exact Nat.le_refl _
        · exact Nat.le_trans ih (Nat.le_succ _)
    simpa using Nat.lt_succ_of_le (h rest)

/-- Concatenate segments with a single separator sentinel between
consecutive segments. -/
def joinSegs : List (List Nat) → List Nat
  | [] => []
  | [s] => s
  | s :: ss => s ++ 0 :: joinSegs ss

/-- Collapse every run of consecutive separator sentinels to a single one. -/
def collapseSeps : List Nat → List Nat
  | [] => []
  | [c] => [c]
  | c1 :: c2 :: rest =>
    if c1 == 0 && c2 == 0 then collapseSeps (c2 :: rest)
    else c1 :: collapseSeps (c2 :: rest)

/-- Remove the leading run of separator sentinels. -/
def stripLead (l : List Nat) : List Nat := l.dropWhile isNUL

/-- Remove the trailing run of separator sentinels. -/
def stripTrail : List Nat → List Nat
  | [] => []
  | c :: rest =>
    if c == 0 && (stripTrail rest).isEmpty then [] else c :: stripTrail rest

/-- Modelled from the spec (section 8, reconstruction property): the
canonical form of a path buffer, with duplicate-separator runs collapsed to
one separator and leading and trailing separators removed. -/
def canonicalForm (l : List Nat) : List Nat := stripTrail (stripLead (collapseSeps l))

/-- Assemble a path buffer from a list of (separator-run length, component)
pairs followed by a trailing separator run of length `t`. -/
def assemble : List (Nat × List Nat) → Nat → List Nat
  | [], t => List.replicate t 0
  | (k, s) :: rest, t => List.replicate k 0 ++ s ++ assemble rest t

/-! ### Basic list facts -/

theorem drop_getD_cons {path : List Nat} {n : Nat} (h : n < path.length) :
    path.drop n = path.getD n 0 :: path.drop (n + 1) := by
  induction path generalizing n with
  | nil => simp at h
  | cons c rest ih =>
    cases n with
    | zero => simp
    | succ n =>
      have h' : n < rest.length := by simpa using h
      simpa [List.getD_cons_succ] using ih h'

theorem drop_length_takeWhile (p : Nat → Bool) :
    ∀ l : List Nat, l.drop (l.takeWhile p).length = l.dropWhile p := by
  intro l
  induction l with
  | nil => rfl
  | cons c rest ih =>
    rw [List.takeWhile_cons, List.dropWhile_cons]
    cases h : p c
    · simp
    · simpa using ih

theorem dropWhile_idem (p : Nat → Bool) :
    ∀ l : List Nat, (l.dropWhile p).dropWhile p = l.dropWhile p := by
  intro l
  induction l with
  | nil => rfl
  | cons c rest ih =>
    rw [List.dropWhile_cons]
    cases h : p c
    · simp [List.dropWhile_cons, h]
    · simpa using ih

/-! ### The scanning loops -/

theorem scanWhile_ge (p : Nat → Bool) (path : List Nat) (fulllen : Nat) :
    ∀ fuel offset, offset ≤ scanWhile p path fulllen fuel offset := by
  intro fuel
  induction fuel with
  | zero => intro offset; exact Nat.le_refl offset
  | succ fuel ih =>
    intro offset
    rw [scanWhile]
    split
    · split
      · exact Nat.le_trans (Nat.le_succ offset) (ih (offset + 1))
      · exact Nat.le_refl offset
    · exact Nat.le_refl offset

theorem scanWhile_le (p : Nat → Bool) (path : List Nat) (fulllen : Nat) :
    ∀ fuel offset, offset ≤ fulllen → scanWhile p path fulllen fuel offset ≤ fulllen := by
  intro fuel
  induction fuel with
  | zero => intro offset h; exact h
  | succ fuel ih =>
    intro offset h
    rw [scanWhile]
    split
    · split
      · exact ih (offset + 1) (by omega)
      · exact h
    · exact h

theorem scanWhile_stop (p : Nat → Bool) (path : List Nat) (fulllen : Nat) :
    ∀ fuel offset, fulllen - offset ≤ fuel →
      scanWhile p path fulllen fuel offset < fulllen →
      p (path.getD (scanWhile p path fulllen fuel offset) 0) = false := by
  intro fuel
  induction fuel with
  | zero =>
    intro offset h hlt
    exfalso
    simp only [scanWhile] at hlt
    omega
  | succ fuel ih =>
    intro offset h hlt
    by_cases h1 : offset < fulllen
    · cases h2 : p (path.getD offset 0)
      · have he : scanWhile p path fulllen (fuel + 1) offset = offset := by
          rw [scanWhile, if_pos h1, if_neg (by rw [h2]; exact Bool.false_ne_true)]
        rw [he] at hlt ⊢
        exact h2
      · have he : scanWhile p path fulllen (fuel + 1) offset
            = scanWhile p path fulllen fuel (offset + 1) := by
          rw [scanWhile, if_pos h1, if_pos h2]
        rw [he] at hlt ⊢
        exact ih (offset + 1) (by omega) hlt
    · have he : scanWhile p path fulllen (fuel + 1) offset = offset := by
        rw [scanWhile, if_neg h1]
      rw [he] at hlt
      exact absurd hlt h1

theorem scanWhile_eq_takeWhile (p : Nat → Bool) (path : List Nat) :
    ∀ fuel offset, path.length - offset ≤ fuel →
      scanWhile p path path.length fuel offset
        = offset + ((path.drop offset).takeWhile p).length := by
  intro fuel
  induction fuel with
  | zero =>
    intro offset h
    have hd : path.drop offset = [] := List.drop_eq_nil_of_le (by omega)
    rw [hd]
    simp only [scanWhile, List.takeWhile_nil, List.length_nil, Nat.add_zero]
  | succ fuel ih =>
    intro offset h
    by_cases h1 : offset < path.length
    · have hd : path.drop offset = path.getD offset 0 :: path.drop (offset + 1) :=
        drop_getD_cons h1
      cases h2 : p (path.getD offset 0)
      · rw [scanWhile, if_pos h1, if_neg (by rw [h2]; exact Bool.false_ne_true)]
        rw [hd, List.takeWhile_cons, if_neg (by rw [h2]; exact Bool.false_ne_true)]
        simp only [List.length_nil, Nat.add_zero]
      · rw [scanWhile, if_pos h1, if_pos h2]
        rw [ih (offset + 1) (by omega), hd, List.takeWhile_cons, if_pos h2]
        simp only [List.length_cons]
        omega
    · have hd : path.drop offset = [] := List.drop_eq_nil_of_le (by omega)
      rw [scanWhile, if_neg h1, hd]
      simp only [List.takeWhile_nil, List.length_nil, Nat.add_zero]

theorem scanFrom_ge (p : Nat → Bool) (path : List Nat) (fulllen offset : Nat) :
    offset ≤ scanFrom p path fulllen offset :=
  scanWhile_ge p path fulllen (fulllen - offset) offset

theorem scanFrom_le (p : Nat → Bool) (path : List Nat) (fulllen offset : Nat)
    (h : offset ≤ fulllen) : scanFrom p path fulllen offset ≤ fulllen :=
  scanWhile_le p path fulllen (fulllen - offset) offset h

theorem scanFrom_stop (p : Nat → Bool) (path : List Nat) (fulllen offset : Nat)
    (h : scanFrom p path fulllen offset < fulllen) :
    p (path.getD (scanFrom p path fulllen offset) 0) = false :=
  scanWhile_stop p path fulllen (fulllen - offset) offset (Nat.le_refl _) h

theorem scanFrom_eq_takeWhile (p : Nat → Bool) (path : List Nat) (offset : Nat) :
    scanFrom p path path.length offset
      = offset + ((path.drop offset).takeWhile p).length :=
  scanWhile_eq_takeWhile p path (path.length - offset) offset (Nat.le_refl _)

theorem drop_scanFrom (p : Nat → Bool) (path : List Nat) (offset : Nat) :
    path.drop (scanFrom p path path.length offset) = (path.drop offset).dropWhile p := by
  rw [scanFrom_eq_takeWhile, ← List.drop_drop, drop_length_takeWhile]

/-! ### Case analysis of `get_nextpath` -/

theorem get_nextpath_none {path : List Nat} {offset fulllen : Nat}
    (h : ¬ scanFrom isNUL path fulllen (scanFrom nonNUL path fulllen offset) < fulllen) :
    get_nextpath path offset fulllen = (none, offset) := by
  simp only [get_nextpath]
  rw [if_neg h]

theorem get_nextpath_some {path : List Nat} {offset fulllen : Nat}
    (h : scanFrom isNUL path fulllen (scanFrom nonNUL path fulllen offset) < fulllen) :
    get_nextpath path offset fulllen
      = (some (scanFrom isNUL path fulllen (scanFrom nonNUL path fulllen offset)),
         scanFrom nonNUL path fulllen
           (scanFrom isNUL path fulllen (scanFrom nonNUL path fulllen offset))) := by
  simp only [get_nextpath]
  rw [if_pos h]

/-! ### Equations for `segmentsOf` -/

theorem segmentsOf_nil : segmentsOf [] = [] := by
  rw [segmentsOf]

theorem segmentsOf_cons_zero (rest : List Nat) :
    segmentsOf (0 :: rest) = segmentsOf rest := by
  rw [segmentsOf]
  simp

theorem segmentsOf_cons_ne {c : Nat} (hc : c ≠ 0) (rest : List Nat) :
    segmentsOf (c :: rest)
      = (c :: rest.takeWhile nonNUL) :: segmentsOf (rest.dropWhile nonNUL) := by
  rw [segmentsOf]
  simp [hc]

theorem segmentsOf_dropWhile_isNUL :
    ∀ l : List Nat, segmentsOf (l.dropWhile isNUL) = segmentsOf l := by
  intro l
  induction l with
  | nil => rfl
  | cons c rest ih =>
    rw [List.dropWhile_cons]
    by_cases h : c = 0
    · subst h
      simpa [isNUL] using ih.trans (segmentsOf_cons_zero rest).symm
    · simp [isNUL, h]

/-! ### The walk visits exactly the buffer's components after the cursor -/

theorem walkAux_succ (path : List Nat) (fulllen fuel offset : Nat) :
    walkAux path fulllen (fuel + 1) offset
      = match get_nextpath path offset fulllen with
        | (none, _) => []
        | (some s, o2) => cstr path s :: walkAux path fulllen fuel o2 := rfl

theorem walkAux_of_some {path : List Nat} {fulllen fuel offset s o2 : Nat}
    (h : get_nextpath path offset fulllen = (some s, o2)) :
    walkAux path fulllen (fuel + 1) offset = cstr path s :: walkAux path fulllen fuel o2 := by
  rw [walkAux_succ, h]

theorem walkAux_of_none {path : List Nat} {fulllen fuel offset o2 : Nat}
    (h : get_nextpath path offset fulllen = (none, o2)) :
    walkAux path fulllen (fuel + 1) offset = [] := by
  rw [walkAux_succ, h]

theorem walkAux_eq_segmentsOf (path : List Nat) :
    ∀ fuel offset, path.length + 1 - offset ≤ fuel →
      walkAux path path.length fuel offset
        = segmentsOf ((path.drop offset).dropWhile nonNUL) := by
  intro fuel
  induction fuel with
  | zero =>
    intro offset h
    have hd : path.drop offset = [] := List.drop_eq_nil_of_le (by omega)
    simp [walkAux, hd, segmentsOf_nil]
  | succ fuel ih =>
    intro offset h
    have hdropa : path.drop (scanFrom nonNUL path path.length offset)
        = (path.drop offset).dropWhile nonNUL := drop_scanFrom nonNUL path offset
    have hdropb :
        path.drop (scanFrom isNUL path path.length (scanFrom nonNUL path path.length offset))
          = ((path.drop offset).dropWhile nonNUL).dropWhile isNUL := by
      rw [drop_scanFrom, hdropa]
    by_cases hblt :
        scanFrom isNUL path path.length (scanFrom nonNUL path path.length offset) < path.length
    · set b := scanFrom isNUL path path.length (scanFrom nonNUL path path.length offset) with hbdef
      set cb := path.getD b 0 with hcbdef
      have hcb : cb ≠ 0 := by
        have hstop := scanFrom_stop isNUL path path.length
          (scanFrom nonNUL path path.length offset) hblt
        rw [← hbdef, ← hcbdef] at hstop
        simpa [isNUL] using hstop
      have hnn : nonNUL cb = true := by simp [nonNUL, hcb]
      have hLb : path.drop b = cb :: path.drop (b + 1) := drop_getD_cons hblt
      have hoffb : offset ≤ b :=
        Nat.le_trans (scanFrom_ge nonNUL path path.length offset)
          (scanFrom_ge isNUL path path.length _)
      have he_ge : b + 1 ≤ scanFrom nonNUL path path.length b := by
        rw [scanFrom_eq_takeWhile, hLb, List.takeWhile_cons, if_pos hnn]
        simp only [List.length_cons]
        omega
      have hdrope : path.drop (scanFrom nonNUL path path.length b)
          = (path.drop b).dropWhile nonNUL := drop_scanFrom nonNUL path b
      rw [walkAux_of_some (get_nextpath_some hblt), ← hbdef]
      rw [ih (scanFrom nonNUL path path.length b) (by omega)]
      rw [hdrope, dropWhile_idem]
      rw [← segmentsOf_dropWhile_isNUL ((path.drop offset).dropWhile nonNUL), ← hdropb]
      rw [hLb, segmentsOf_cons_ne hcb]
      have hcstr : cstr path b = cb :: (path.drop (b + 1)).takeWhile nonNUL := by
        rw [cstr, hLb, List.takeWhile_cons, if_pos hnn]
      rw [hcstr, List.dropWhile_cons, if_pos hnn]
    · rw [walkAux_of_none (get_nextpath_none hblt)]
      rw [← segmentsOf_dropWhile_isNUL ((path.drop offset).dropWhile nonNUL), ← hdropb]
      have hd : path.drop
          (scanFrom isNUL path path.length (scanFrom nonNUL path path.length offset)) = [] :=
        List.drop_eq_nil_of_le (by omega)
      rw [hd, segmentsOf_nil]

theorem walkSegments_eq_segmentsOf (path : List Nat) :
    walkSegments path 0 path.length = segmentsOf (path.dropWhile nonNUL) := by
  have h := walkAux_eq_segmentsOf path (path.length + 1 - 0) 0 (Nat.le_refl _)
  simpa [walkSegments] using h

/-! ### Cons equations for the byte predicates -/

theorem nonNUL_zero : nonNUL 0 = false := rfl

theorem nonNUL_ne {c : Nat} (hc : c ≠ 0) : nonNUL c = true := by
  simp [nonNUL, hc]

theorem takeWhile_nonNUL_cons_zero (l : List Nat) :
    (0 :: l).takeWhile nonNUL = [] := by
  rw [List.takeWhile_cons, if_neg (by rw [nonNUL_zero]; exact Bool.false_ne_true)]

theorem dropWhile_nonNUL_cons_zero (l : List Nat) :
    (0 :: l).dropWhile nonNUL = 0 :: l := by
  rw [List.dropWhile_cons, if_neg (by rw [nonNUL_zero]; exact Bool.false_ne_true)]

theorem takeWhile_nonNUL_cons_ne {c : Nat} (hc : c ≠ 0) (l : List Nat) :
    (c :: l).takeWhile nonNUL = c :: l.takeWhile nonNUL := by
  rw [List.takeWhile_cons, if_pos (nonNUL_ne hc)]

theorem dropWhile_nonNUL_cons_ne {c : Nat} (hc : c ≠ 0) (l : List Nat) :
    (c :: l).dropWhile nonNUL = l.dropWhile nonNUL := by
  rw [List.dropWhile_cons, if_pos (nonNUL_ne hc)]

/-! ### Append and replicate facts -/

theorem takeWhile_append_all (p : Nat → Bool) :
    ∀ l1 l2 : List Nat, (∀ x ∈ l1, p x = true) →
      (l1 ++ l2).takeWhile p = l1 ++ l2.takeWhile p := by
  intro l1
  induction l1 with
  | nil => intro l2 _; rfl
  | cons c rest ih =>
    intro l2 hall
    rw [List.cons_append, List.takeWhile_cons, if_pos (hall c (by simp))]
    rw [ih l2 (fun x hx => hall x (by simp [hx]))]
    rfl

theorem dropWhile_append_all (p : Nat → Bool) :
    ∀ l1 l2 : List Nat, (∀ x ∈ l1, p x = true) →
      (l1 ++ l2).dropWhile p = l2.dropWhile p := by
  intro l1
  induction l1 with
  | nil => intro l2 _; rfl
  | cons c rest ih =>
    intro l2 hall
    rw [List.cons_append, List.dropWhile_cons, if_pos (hall c (by simp))]
    exact ih l2 (fun x hx => hall x (by simp [hx]))

theorem takeWhile_append_zero (p : Nat → Bool) (hp : p 0 = false) :
    ∀ l : List Nat, (l ++ [0]).takeWhile p = l.takeWhile p := by
  intro l
  induction l with
  | nil =>
    rw [List.nil_append, List.takeWhile_nil, List.takeWhile_cons,
      if_neg (by rw [hp]; exact Bool.false_ne_true)]
  | cons c rest ih =>
    rw [List.cons_append, List.takeWhile_cons, List.takeWhile_cons]
    cases h : p c
    · rfl
    · simp only [if_true, ih]

theorem dropWhile_append_zero (p : Nat → Bool) (hp : p 0 = false) :
    ∀ l : List Nat, (l ++ [0]).dropWhile p = l.dropWhile p ++ [0] := by
  intro l
  induction l with
  | nil =>
    rw [List.nil_append, List.dropWhile_nil, List.dropWhile_cons,
      if_neg (by rw [hp]; exact Bool.false_ne_true), List.nil_append]
  | cons c rest ih =>
    rw [List.cons_append, List.dropWhile_cons, List.dropWhile_cons]
    cases h : p c
    · rfl
    · simp only [if_true, ih]

theorem length_dropWhile_le (p : Nat → Bool) :
    ∀ l : List Nat, (l.dropWhile p).length ≤ l.length := by
  intro l
  induction l with
  | nil => exact Nat.le_refl 0
  | cons c rest ih =>
    rw [List.dropWhile_cons]
    cases h : p c
    · exact Nat.le_refl _
    · exact Nat.le_trans ih (Nat.le_succ _)

theorem segmentsOf_append_zero :
    ∀ n : Nat, ∀ l : List Nat, l.length ≤ n → segmentsOf (l ++ [0]) = segmentsOf l := by
  intro n
  induction n with
  | zero =>
    intro l hl
    have hnil : l = [] := List.length_eq_zero.mp (by omega)
    subst hnil
    rw [List.nil_append, segmentsOf_cons_zero, segmentsOf_nil]
  | succ n ih =>
    intro l hl
    cases l with
    | nil => rw [List.nil_append, segmentsOf_cons_zero, segmentsOf_nil]
    | cons c rest =>
      have hlen : rest.length ≤ n := by simp at hl; omega
      by_cases hc : c = 0
      · subst hc
        rw [List.cons_append, segmentsOf_cons_zero, segmentsOf_cons_zero]
        exact ih rest hlen
      · rw [List.cons_append, segmentsOf_cons_ne hc, segmentsOf_cons_ne hc]
        rw [takeWhile_append_zero nonNUL nonNUL_zero rest]
        rw [dropWhile_append_zero nonNUL nonNUL_zero rest]
        rw [ih (rest.dropWhile nonNUL) (Nat.le_trans (length_dropWhile_le nonNUL rest) hlen)]

theorem segmentsOf_replicate (n : Nat) : segmentsOf (List.replicate n 0) = [] := by
  induction n with
  | zero => exact segmentsOf_nil
  | succ n ih => rw [List.replicate_succ, segmentsOf_cons_zero]; exact ih

theorem segmentsOf_replicate_append (k : Nat) (l : List Nat) :
    segmentsOf (List.replicate k 0 ++ l) = segmentsOf l := by
  induction k with
  | zero => rw [List.replicate_zero, List.nil_append]
  | succ k ih => rw [List.replicate_succ, List.cons_append, segmentsOf_cons_zero]; exact ih

/-! ### Assembled paths and their components -/

theorem takeWhile_nonNUL_replicate (t : Nat) :
    (List.replicate t 0).takeWhile nonNUL = [] := by
  cases t with
  | zero => rfl
  | succ t => rw [List.replicate_succ]; exact takeWhile_nonNUL_cons_zero _

theorem dropWhile_nonNUL_replicate (t : Nat) :
    (List.replicate t 0).dropWhile nonNUL = List.replicate t 0 := by
  cases t with
  | zero => rfl
  | succ t => rw [List.replicate_succ]; exact dropWhile_nonNUL_cons_zero _

theorem assemble_cons_pos {k : Nat} (hk : 1 ≤ k) (s : List Nat)
    (rest : List (Nat × List Nat)) (t : Nat) :
    assemble ((k, s) :: rest) t
      = 0 :: (List.replicate (k - 1) 0 ++ (s ++ assemble rest t)) := by
  cases k with
  | zero => omega
  | succ k =>
    show List.replicate (k + 1) 0 ++ s ++ assemble rest t = _
    rw [List.replicate_succ, List.cons_append, List.cons_append]
    simp

theorem takeWhile_nonNUL_assemble (ps : List (Nat × List Nat)) (t : Nat)
    (hps : ∀ pr ∈ ps, 1 ≤ pr.1) :
    (assemble ps t).takeWhile nonNUL = [] := by
  cases ps with
  | nil => exact takeWhile_nonNUL_replicate t
  | cons pr rest =>
    obtain ⟨k, s⟩ := pr
    rw [assemble_cons_pos (hps (k, s) (by simp)) s rest t]
    exact takeWhile_nonNUL_cons_zero _

theorem dropWhile_nonNUL_assemble (ps : List (Nat × List Nat)) (t : Nat)
    (hps : ∀ pr ∈ ps, 1 ≤ pr.1) :
    (assemble ps t).dropWhile nonNUL = assemble ps t := by
  cases ps with
  | nil => exact dropWhile_nonNUL_replicate t
  | cons pr rest =>
    obtain ⟨k, s⟩ := pr
    rw [assemble_cons_pos (hps (k, s) (by simp)) s rest t]
    exact dropWhile_nonNUL_cons_zero _

theorem segmentsOf_assemble :
    ∀ ps : List (Nat × List Nat), ∀ t : Nat,
      (∀ pr ∈ ps, 1 ≤ pr.1 ∧ pr.2 ≠ [] ∧ ∀ c ∈ pr.2, c ≠ 0) →
      segmentsOf (assemble ps t) = ps.map Prod.snd := by
  intro ps
  induction ps with
  | nil => intro t _; exact segmentsOf_replicate t
  | cons pr rest ih =>
    intro t hps
    obtain ⟨k, s⟩ := pr
    obtain ⟨hk, hs, hsc⟩ := hps (k, s) (by simp)
    have hrest : ∀ pr ∈ rest, 1 ≤ pr.1 ∧ pr.2 ≠ [] ∧ ∀ c ∈ pr.2, c ≠ 0 :=
      fun pr hpr => hps pr (List.mem_cons_of_mem _ hpr)
    show segmentsOf (List.replicate k 0 ++ s ++ assemble rest t) = _
    rw [List.append_assoc, segmentsOf_replicate_append]
    cases s with
    | nil => exact absurd rfl hs
    | cons c s2 =>
      have hc : c ≠ 0 := hsc c (by simp)
      have hs2 : ∀ x ∈ s2, nonNUL x = true :=
        fun x hx => nonNUL_ne (hsc x (by simp [hx]))
      rw [List.cons_append, segmentsOf_cons_ne hc]
      rw [takeWhile_append_all nonNUL s2 _ hs2]
      rw [takeWhile_nonNUL_assemble rest t (fun pr hpr => (hrest pr hpr).1)]
      rw [List.append_nil]
      rw [dropWhile_append_all nonNUL s2 _ hs2]
      rw [dropWhile_nonNUL_assemble rest t (fun pr hpr => (hrest pr hpr).1)]
      rw [ih t hrest]
      rfl

/-! ### Canonical forms and reconstruction -/

theorem collapseSeps_cons_ne {c : Nat} (hc : c ≠ 0) :
    ∀ l : List Nat, collapseSeps (c :: l) = c :: collapseSeps l := by
  intro l
  cases l with
  | nil => rfl
  | cons d rest =>
    show (if c == 0 && d == 0 then collapseSeps (d :: rest)
          else c :: collapseSeps (d :: rest)) = _
    rw [if_neg (by simp [hc])]

theorem collapseSeps_zero_zero (l : List Nat) :
    collapseSeps (0 :: 0 :: l) = collapseSeps (0 :: l) := by
  show (if (0 : Nat) == 0 && (0 : Nat) == 0 then collapseSeps (0 :: l)
        else 0 :: collapseSeps (0 :: l)) = _
  rw [if_pos (by simp)]

theorem collapseSeps_zero_ne {d : Nat} (hd : d ≠ 0) (l : List Nat) :
    collapseSeps (0 :: d :: l) = 0 :: collapseSeps (d :: l) := by
  show (if (0 : Nat) == 0 && d == 0 then collapseSeps (d :: l)
        else 0 :: collapseSeps (d :: l)) = _
  rw [if_neg (by simp [hd])]

theorem stripLead_nil : stripLead [] = [] := rfl

theorem stripLead_cons_zero (l : List Nat) : stripLead (0 :: l) = stripLead l := by
  show (0 :: l).dropWhile isNUL = l.dropWhile isNUL
  rw [List.dropWhile_cons, if_pos (by simp [isNUL])]

theorem stripLead_cons_ne {c : Nat} (hc : c ≠ 0) (l : List Nat) :
    stripLead (c :: l) = c :: l := by
  show (c :: l).dropWhile isNUL = c :: l
  rw [List.dropWhile_cons, if_neg (by simp [isNUL, hc])]

theorem stripTrail_cons_ne {c : Nat} (hc : c ≠ 0) (l : List Nat) :
    stripTrail (c :: l) = c :: stripTrail l := by
  rw [stripTrail, if_neg (by simp [hc])]

theorem stripTrail_cons_zero (l : List Nat) :
    stripTrail (0 :: l)
      = if (stripTrail l).isEmpty then [] else 0 :: stripTrail l := by
  rw [stripTrail]
  simp

theorem canonicalForm_nil : canonicalForm [] = [] := rfl

theorem canonicalForm_cons_zero : ∀ l : List Nat, canonicalForm (0 :: l) = canonicalForm l := by
  intro l
  cases l with
  | nil => rfl
  | cons d rest =>
    by_cases hd : d = 0
    · subst hd
      rw [canonicalForm, collapseSeps_zero_zero]
      rfl
    · rw [canonicalForm, collapseSeps_zero_ne hd, stripLead_cons_zero]
      rw [canonicalForm]

theorem canonicalForm_cons_ne {c : Nat} (hc : c ≠ 0) (l : List Nat) :
    canonicalForm (c :: l) = c :: stripTrail (collapseSeps l) := by
  rw [canonicalForm, collapseSeps_cons_ne hc, stripLead_cons_ne hc, stripTrail_cons_ne hc]

theorem joinSegs_cons (s : List Nat) (ss : List (List Nat)) :
    joinSegs (s :: ss) = if ss = [] then s else s ++ 0 :: joinSegs ss := by
  cases ss with
  | nil => rfl
  | cons a ss => rw [if_neg (by simp)]; rfl

theorem segmentsOf_cons_ne_nonempty {c : Nat} (hc : c ≠ 0) (l : List Nat) :
    segmentsOf (c :: l) ≠ [] := by
  rw [segmentsOf_cons_ne hc]
  simp

theorem joinSegs_segmentsOf_aux :
    ∀ n : Nat, ∀ l : List Nat, l.length ≤ n →
      (joinSegs (segmentsOf l) = canonicalForm l
       ∧ (if segmentsOf (l.dropWhile nonNUL) = []
            then l.takeWhile nonNUL
            else l.takeWhile nonNUL ++ 0 :: joinSegs (segmentsOf (l.dropWhile nonNUL)))
          = stripTrail (collapseSeps l)) := by
  intro n
  induction n with
  | zero =>
    intro l hl
    have hnil : l = [] := List.length_eq_zero.mp (by omega)
    subst hnil
    constructor
    · rw [segmentsOf_nil]; rfl
    · rw [List.dropWhile_nil, segmentsOf_nil, if_pos rfl]; rfl
  | succ n ih =>
    intro l hl
    cases l with
    | nil => exact ih [] (by simp)
    | cons c rest =>
      have hlen : rest.length ≤ n := by simp at hl; omega
      by_cases hc : c = 0
      · subst hc
        constructor
        · rw [segmentsOf_cons_zero, (ih rest hlen).1, canonicalForm_cons_zero]
        · rw [takeWhile_nonNUL_cons_zero, dropWhile_nonNUL_cons_zero, segmentsOf_cons_zero]
          cases rest with
          | nil =>
            rw [segmentsOf_nil, if_pos rfl]
            rfl
          | cons d r2 =>
            by_cases hd : d = 0
            · subst hd
              have ih2 := (ih (0 :: r2) hlen).2
              rw [dropWhile_nonNUL_cons_zero, takeWhile_nonNUL_cons_zero,
                segmentsOf_cons_zero] at ih2
              rw [segmentsOf_cons_zero, collapseSeps_zero_zero]
              exact ih2
            · rw [if_neg (segmentsOf_cons_ne_nonempty hd r2)]
              rw [List.nil_append, (ih (d :: r2) hlen).1, canonicalForm_cons_ne hd]
              rw [collapseSeps_zero_ne hd, stripTrail_cons_zero,
                collapseSeps_cons_ne hd, stripTrail_cons_ne hd]
              rw [if_neg (by simp)]
      · constructor
        · rw [segmentsOf_cons_ne hc, joinSegs_cons, canonicalForm_cons_ne hc,
            ← (ih rest hlen).2]
          by_cases hSS : segmentsOf (rest.dropWhile nonNUL) = []
          · rw [if_pos hSS, if_pos hSS]
          · rw [if_neg hSS, if_neg hSS, List.cons_append]
        · rw [takeWhile_nonNUL_cons_ne hc, dropWhile_nonNUL_cons_ne hc]
          rw [collapseSeps_cons_ne hc, stripTrail_cons_ne hc, ← (ih rest hlen).2]
          by_cases hSS : segmentsOf (rest.dropWhile nonNUL) = []
          · rw [if_pos hSS, if_pos hSS]
          · rw [if_neg hSS, if_neg hSS, List.cons_append]

theorem joinSegs_segmentsOf (l : List Nat) :
    joinSegs (segmentsOf l) = canonicalForm l :=
  (joinSegs_segmentsOf_aux l.length l (Nat.le_refl _)).1

theorem takeWhile_isNUL_replicate (n : Nat) :
    (List.replicate n 0).takeWhile isNUL = List.replicate n 0 := by
  induction n with
  | zero => rfl
  | succ n ih =>
    rw [List.replicate_succ, List.takeWhile_cons, if_pos (by simp [isNUL]), ih]

/-! ## The claims -/

/-- C1: For the input path `..///path` (with every separator, including
consecutive ones, pre-normalized to the NUL sentinel and the cursor starting
at 0), successive calls to `get_nextpath` yield exactly the single segment
`path` and then signal exhaustion; the two-character component `..` is
swallowed and never yielded. -/
theorem c1_weird_walk :
    get_nextpath weirdPath 0 9 = (some 5, 9)
    ∧ cstr weirdPath 5 = [112, 97, 116, 104]
    ∧ get_nextpath weirdPath 9 9 = (none, 9)
    ∧ walkSegments weirdPath 0 9 = [[112, 97, 116, 104]] := by decide

/-- C2: For the input path `/some/path` (with separators pre-normalized to
the NUL sentinel and the cursor starting at 0), successive calls to
`get_nextpath` yield exactly `some`, then `path`, then signal exhaustion; the
leading separator produces no empty segment. -/
theorem c2_typical_walk :
    get_nextpath typicalPath 0 10 = (some 1, 5)
    ∧ cstr typicalPath 1 = [115, 111, 109, 101]
    ∧ get_nextpath typicalPath 5 10 = (some 6, 10)
    ∧ cstr typicalPath 6 = [112, 97, 116, 104]
    ∧ get_nextpath typicalPath 10 10 = (none, 10)
    ∧ walkSegments typicalPath 0 10 = [[115, 111, 109, 101], [112, 97, 116, 104]] := by
  decide

/-- C3 counterexample: the buffer `a` is non-empty and contains no separator,
yet a walk started at cursor 0 yields no segment at all — not one segment
equal to the whole buffer as the claim states. -/
theorem c3_counterexample :
    walkSegments [97] 0 1 = [] ∧ ¬ walkSegments [97] 0 1 = [[97]] := by decide

/-- C3 (amended): for every non-empty path buffer containing no separator
characters, a walk started at cursor 0 yields no segment before signaling
exhaustion — the walker always winds past the component that begins exactly
at the start position, so the whole buffer is swallowed. -/
theorem c3_amended (buf : List Nat) (hne : buf ≠ []) (hsep : ∀ c ∈ buf, c ≠ 0) :
    walkSegments buf 0 buf.length = [] := by
  rw [walkSegments_eq_segmentsOf]
  have hdw : buf.dropWhile nonNUL = [] :=
    List.dropWhile_eq_nil_iff.mpr (fun x hx => nonNUL_ne (hsep x hx))
  rw [hdw, segmentsOf_nil]

theorem c3_amended_witness :
    ([97] : List Nat) ≠ [] ∧ (∀ c ∈ ([97] : List Nat), c ≠ 0)
    ∧ walkSegments [97] 0 (List.length [97]) = [] :=
  ⟨by decide, by decide, c3_amended [97] (by decide) (by decide)⟩

/-- C4 counterexample: the buffer `a/b` (normalized `[97, 0, 98]`) has the
components `a`, `b`, yet the walk yields only `b` — the first component is
skipped, contradicting the claim. -/
theorem c4_counterexample :
    walkSegments [97, 0, 98] 0 3 = [[98]]
    ∧ ¬ walkSegments [97, 0, 98] 0 3 = [[97], [98]] := by decide

/-- C4 (amended): for every path in which each component — including the
first — is preceded by a run of one or more separators (with an optional
trailing separator run), successive calls starting at cursor 0 yield exactly
the components s1, ..., sn in order, with no segment skipped, duplicated or
reordered, followed by exhaustion; without a separator before the first
component that component is swallowed. -/
theorem c4_amended (ps : List (Nat × List Nat)) (t : Nat)
    (hps : ∀ pr ∈ ps, 1 ≤ pr.1 ∧ pr.2 ≠ [] ∧ ∀ c ∈ pr.2, c ≠ 0) :
    walkSegments (assemble ps t) 0 (assemble ps t).length = ps.map Prod.snd := by
  rw [walkSegments_eq_segmentsOf]
  rw [dropWhile_nonNUL_assemble ps t (fun pr hpr => (hps pr hpr).1)]
  exact segmentsOf_assemble ps t hps

theorem c4_amended_witness :
    (∀ pr ∈ [((1 : Nat), [115]), ((2 : Nat), [112, 97])],
      1 ≤ pr.1 ∧ pr.2 ≠ [] ∧ ∀ c ∈ pr.2, c ≠ 0)
    ∧ walkSegments (assemble [(1, [115]), (2, [112, 97])] 1) 0
        (assemble [(1, [115]), (2, [112, 97])] 1).length = [[115], [112, 97]] :=
  ⟨by decide, c4_amended [(1, [115]), (2, [112, 97])] 1 (by decide)⟩

/-- C5 counterexample: for the buffer `a` (no separators), the walk yields
nothing, so the joined segments are empty, while the canonical form of the
buffer is the buffer itself — the reconstruction property fails. -/
theorem c5_counterexample :
    joinSegs (walkSegments [97] 0 1) = []
    ∧ canonicalForm [97] = [97]
    ∧ ¬ joinSegs (walkSegments [97] 0 1) = canonicalForm [97] := by decide

/-- C5 (amended): for every path buffer that begins with a separator (or is
empty), concatenating all segments yielded by a complete walk started at
cursor 0, with a single separator between consecutive segments, equals the
canonical form of the path (duplicate-separator runs collapsed, leading and
trailing separators removed). -/
theorem c5_amended (buf : List Nat) (hlead : buf.headD 0 = 0) :
    joinSegs (walkSegments buf 0 buf.length) = canonicalForm buf := by
  rw [walkSegments_eq_segmentsOf]
  have hdw : buf.dropWhile nonNUL = buf := by
    cases buf with
    | nil => rfl
    | cons c rest =>
      have hc : c = 0 := by simpa using hlead
      subst hc
      exact dropWhile_nonNUL_cons_zero rest
  rw [hdw]
  exact joinSegs_segmentsOf buf

theorem c5_amended_witness :
    typicalPath.headD 0 = 0
    ∧ joinSegs (walkSegments typicalPath 0 typicalPath.length) = canonicalForm typicalPath :=
  ⟨by decide, c5_amended typicalPath (by decide)⟩

/-- C6: for every buffer consisting only of separators the first call at
cursor 0 immediately signals exhaustion without moving the cursor and the
walk yields zero segments; the empty buffer immediately signals exhaustion;
and a trailing separator appended after any buffer never produces an
additional segment. -/
theorem c6_empty_and_separators :
    (∀ n : Nat, get_nextpath (List.replicate n 0) 0 n = (none, 0)
        ∧ walkSegments (List.replicate n 0) 0 n = [])
    ∧ get_nextpath [] 0 0 = (none, 0)
    ∧ (∀ buf : List Nat,
        walkSegments (buf ++ [0]) 0 (buf ++ [0]).length = walkSegments buf 0 buf.length) := by
  have hrep : ∀ n : Nat, (List.replicate n (0 : Nat)).length = n :=
    fun n => List.length_replicate n 0
  refine ⟨fun n => ⟨?_, ?_⟩, by decide, fun buf => ?_⟩
  · have h1 : scanFrom nonNUL (List.replicate n 0) (List.replicate n 0).length 0 = 0 := by
      rw [scanFrom_eq_takeWhile, List.drop_zero, takeWhile_nonNUL_replicate]
      rfl
    have h2 : scanFrom isNUL (List.replicate n 0) (List.replicate n 0).length 0 = n := by
      rw [scanFrom_eq_takeWhile, List.drop_zero, takeWhile_isNUL_replicate,
        List.length_replicate, Nat.zero_add]
    rw [hrep n] at h1 h2
    exact get_nextpath_none (by rw [h1, h2]; omega)
  · have hws := walkSegments_eq_segmentsOf (List.replicate n 0)
    rw [hrep n] at hws
    rw [hws, dropWhile_nonNUL_replicate, segmentsOf_replicate]
  · rw [walkSegments_eq_segmentsOf, walkSegments_eq_segmentsOf]
    rw [dropWhile_append_zero nonNUL nonNUL_zero buf]
    exact segmentsOf_append_zero (buf.dropWhile nonNUL).length _ (Nat.le_refl _)

/-- C7: exhaustion is an idempotent terminal state — a call to
`get_nextpath` that signals exhaustion does not mutate the cursor, and the
subsequent call with that same stationary cursor again signals exhaustion
with the cursor unchanged, rather than erroring or yielding a segment. -/
theorem c7_exhaustion_idempotent (buf : List Nat) (c fulllen : Nat)
    (h : (get_nextpath buf c fulllen).1 = none) :
    get_nextpath buf c fulllen = (none, c)
    ∧ get_nextpath buf (get_nextpath buf c fulllen).2 fulllen = (none, c) := by
  by_cases hb : scanFrom isNUL buf fulllen (scanFrom nonNUL buf fulllen c) < fulllen
  · rw [get_nextpath_some hb] at h
    simp at h
  · have h1 : get_nextpath buf c fulllen = (none, c) := get_nextpath_none hb
    refine ⟨h1, ?_⟩
    rw [h1]
    exact h1

theorem c7_witness :
    (get_nextpath typicalPath 6 10).1 = none
    ∧ (get_nextpath typicalPath 6 10 = (none, 6)
       ∧ get_nextpath typicalPath (get_nextpath typicalPath 6 10).2 10 = (none, 6)) :=
  ⟨by decide, c7_exhaustion_idempotent typicalPath 6 10 (by decide)⟩

/-- C8: for every buffer and every call with a cursor `c ≤ total_length`,
the cursor after the call is at least its value before the call and never
exceeds the total length; hence the cursor is monotonically non-decreasing
across a walk and bounded by the buffer length. -/
theorem c8_cursor_monotone_bounded (buf : List Nat) (c fulllen : Nat) (h : c ≤ fulllen) :
    c ≤ (get_nextpath buf c fulllen).2 ∧ (get_nextpath buf c fulllen).2 ≤ fulllen := by
  by_cases hb : scanFrom isNUL buf fulllen (scanFrom nonNUL buf fulllen c) < fulllen
  · rw [get_nextpath_some hb]
    refine ⟨?_, ?_⟩
    · exact Nat.le_trans
        (Nat.le_trans (scanFrom_ge nonNUL buf fulllen c) (scanFrom_ge isNUL buf fulllen _))
        (scanFrom_ge nonNUL buf fulllen _)
    · exact scanFrom_le nonNUL buf fulllen _ (Nat.le_of_lt hb)
  · rw [get_nextpath_none hb]
    exact ⟨Nat.le_refl c, h⟩

theorem c8_witness :
    (0 : Nat) ≤ 10
    ∧ (0 ≤ (get_nextpath typicalPath 0 10).2 ∧ (get_nextpath typicalPath 0 10).2 ≤ 10) :=
  ⟨by decide, c8_cursor_monotone_bounded typicalPath 0 10 (by decide)⟩

/-- C9: a call to `get_nextpath` has exactly one of two outcomes — a
produced segment or the exhaustion sentinel, with no other error result —
and every produced segment is non-empty. -/
theorem c9_outcomes (buf : List Nat) (c fulllen : Nat)
    (hc : c ≤ fulllen) (hlen : fulllen ≤ buf.length) :
    (get_nextpath buf c fulllen).1 = none
    ∨ ∃ s, (get_nextpath buf c fulllen).1 = some s ∧ cstr buf s ≠ [] := by
  by_cases hb : scanFrom isNUL buf fulllen (scanFrom nonNUL buf fulllen c) < fulllen
  · right
    set b := scanFrom isNUL buf fulllen (scanFrom nonNUL buf fulllen c) with hbdef
    set cb := buf.getD b 0 with hcbdef
    refine ⟨b, ?_, ?_⟩
    · rw [get_nextpath_some hb, ← hbdef]
    · have hstop := scanFrom_stop isNUL buf fulllen (scanFrom nonNUL buf fulllen c) hb
      rw [← hbdef, ← hcbdef] at hstop
      have hcb : cb ≠ 0 := by simpa [isNUL] using hstop
      have hblen : b < buf.length := Nat.lt_of_lt_of_le hb hlen
      rw [cstr, drop_getD_cons hblen, ← hcbdef, List.takeWhile_cons, if_pos (nonNUL_ne hcb)]
      simp
  · left
    rw [get_nextpath_none hb]

theorem c9_witness :
    ((0 : Nat) ≤ 10 ∧ 10 ≤ typicalPath.length)
    ∧ ((get_nextpath typicalPath 0 10).1 = none
       ∨ ∃ s, (get_nextpath typicalPath 0 10).1 = some s ∧ cstr typicalPath s ≠ []) :=
  ⟨⟨by decide, by decide⟩, c9_outcomes typicalPath 0 10 (by decide) (by decide)⟩

/-- C10: `replace_slashes_with_NUL` replaces every `'/'` (byte 47) at an
index `i < len` with the NUL sentinel and leaves every other byte at those
indices, and every byte at indices `≥ len`, unchanged; the buffer length
itself is unchanged. -/
theorem replace_slashes_nil (len : Nat) : replace_slashes_with_NUL [] len = [] := by
  cases len <;> rfl

theorem replace_slashes_zero (path : List Nat) : replace_slashes_with_NUL path 0 = path := by
  cases path <;> rfl

theorem replace_slashes_cons_succ (c : Nat) (rest : List Nat) (len : Nat) :
    replace_slashes_with_NUL (c :: rest) (len + 1)
      = (if c == 47 then 0 else c) :: replace_slashes_with_NUL rest len := rfl

theorem c10_replace_slashes (path : List Nat) (len : Nat) :
    (replace_slashes_with_NUL path len).length = path.length
    ∧ ∀ i : Nat, (replace_slashes_with_NUL path len).getD i 0
        = if i < len ∧ path.getD i 0 = 47 then 0 else path.getD i 0 := by
  induction path generalizing len with
  | nil =>
    rw [replace_slashes_nil]
    refine ⟨rfl, fun i => ?_⟩
    rw [List.getD_nil]
    split <;> rfl
  | cons c rest ih =>
    cases len with
    | zero =>
      rw [replace_slashes_zero]
      refine ⟨rfl, fun i => ?_⟩
      rw [if_neg (fun hh => absurd hh.1 (by omega))]
    | succ len =>
      rw [replace_slashes_cons_succ]
      constructor
      · simp [(ih len).1]
      · intro i
        cases i with
        | zero =>
          rw [List.getD_cons_zero, List.getD_cons_zero]
          by_cases h47 : c = 47
          · rw [if_pos (by simp [h47]), if_pos ⟨by omega, h47⟩]
          · rw [if_neg (by simp [h47]), if_neg (fun hh => absurd hh.2 h47)]
        | succ i =>
          rw [List.getD_cons_succ, List.getD_cons_succ, (ih len).2 i]
          by_cases hi : i < len ∧ rest.getD i 0 = 47
          · rw [if_pos hi, if_pos ⟨by omega, hi.2⟩]
          · rw [if_neg hi, if_neg (fun hh => hi ⟨by omega, hh.2⟩)]
